import Mathlib

/-!
Verification of the Python-Markdown rendering components in this repository:
the HTML/XHTML serializer (markdown/serializers.py) and the CodeHilite
extension (markdown/extensions/codehilite.py).

Strings are modelled as List Char.  Python str.replace with a single-char
needle is modelled by replChar; the ampersand-escaping regex RE_AMP together
with RE_AMP.sub is modelled by refAfterAmp / reAmpSub.

Modelling notes for the serializer:
* QName tags, keys and values are out of scope: tags, attribute keys and
  attribute values are plain strings, so the namespace branch of
  serialize html never fires and is omitted.
* A missing (None) text or tail is modelled as the empty string; every
  branch of serialize html only tests truthiness of text and tail, and the
  escaping functions map the empty string to itself, so the two cases
  serialize identically.  (The only divergence would be a Comment or
  ProcessingInstruction node with None text, which raises in Python; such
  nodes are not used by any claim.)
-/

namespace Md

/-- ASCII decimal digit, the class 0-9 of RE_AMP. -/
def isDec (c : Char) : Bool := c.isDigit

/-- ASCII hexadecimal digit, the class 0-9a-f of RE_AMP under re.I. -/
def isHexCI (c : Char) : Bool :=
  c.isDigit || ('a' ≤ c && c ≤ 'f') || ('A' ≤ c && c ≤ 'F')

/-- ASCII alphanumeric, the class 0-9a-z of RE_AMP under re.I. -/
def isAlnumCI (c : Char) : Bool :=
  c.isDigit || ('a' ≤ c && c ≤ 'z') || ('A' ≤ c && c ≤ 'Z')

/-- Characters that can occur in the body of a character reference
recognized by RE_AMP (before the terminating semicolon). -/
def isRefBody (c : Char) : Bool := c = '#' || isAlnumCI c

/-- Tests whether a list starts with a given character. -/
def headIs (c : Char) : List Char → Bool
  | x :: _ => x = c
  | [] => false

/-- The negative lookahead of RE_AMP: the text after an ampersand starts a
numeric (decimal or hexadecimal) or named character reference, that is it
matches (?:\#[0-9]+|\#x[0-9a-f]+|[0-9a-z]+); case-insensitively. -/
def refAfterAmp (cs : List Char) : Bool :=
  match cs with
  | '#' :: rest =>
      ((!(rest.takeWhile isDec).isEmpty) && headIs ';' (rest.dropWhile isDec))
      ||
      (match rest with
       | x :: rest2 =>
           (x = 'x' || x = 'X') && (!(rest2.takeWhile isHexCI).isEmpty)
             && headIs ';' (rest2.dropWhile isHexCI)
       | [] => false)
  | _ =>
      (!(cs.takeWhile isAlnumCI).isEmpty) && headIs ';' (cs.dropWhile isAlnumCI)

/-- RE_AMP.sub: replace every ampersand that does not already begin a
character reference by the five characters of the amp entity. -/
def reAmpSub : List Char → List Char
  | [] => []
  | c :: rest =>
      if c = '&' then
        if refAfterAmp rest then '&' :: reAmpSub rest
        else '&' :: 'a' :: 'm' :: 'p' :: ';' :: reAmpSub rest
      else c :: reAmpSub rest

/-- Python str.replace with a single-character needle: every occurrence of
the character c is replaced by the string rep. -/
def replChar (c : Char) (rep : List Char) : List Char → List Char
  | [] => []
  | d :: rest =>
      if d = c then rep ++ replChar c rep rest else d :: replChar c rep rest

/-- The function escape cdata of serializers.py: entity-aware ampersand
escaping followed by replacing the less-than sign. -/
def escape_cdata (text : List Char) : List Char :=
  replChar '<' ("&lt;".data) (reAmpSub text)

/-- The function escape attrib of serializers.py: escapes ampersand
(entity-aware), less-than, greater-than, double quote and newline. -/
def escape_attrib (text : List Char) : List Char :=
  replChar '\n' ("&#10;".data)
    (replChar '"' ("&quot;".data)
      (replChar '>' ("&gt;".data)
        (replChar '<' ("&lt;".data) (reAmpSub text))))

/-- The function escape attrib html of serializers.py: like escape attrib
but without the newline replacement. -/
def escape_attrib_html (text : List Char) : List Char :=
  replChar '"' ("&quot;".data)
    (replChar '>' ("&gt;".data)
      (replChar '<' ("&lt;".data) (reAmpSub text)))

/-- Every ampersand in the string begins a character reference recognized
by RE_AMP. -/
def ampsOk : List Char → Bool
  | [] => true
  | c :: rest => (if c = '&' then refAfterAmp rest else true) && ampsOk rest

/-- Element tags: the two special sentinel tags Comment and
ProcessingInstruction, a None tag (fragment) and ordinary named tags. -/
inductive Tag : Type where
  | comment
  | procInstr
  | noneTag
  | named (t : List Char)
deriving DecidableEq

mutual
/-- A document tree node, after xml.etree.ElementTree.Element: a tag, a
list of attribute pairs, text, tail and a list of children. -/
inductive Element : Type where
  | mk (tag : Tag) (attrib : List (List Char × List Char)) (text : List Char)
       (tail : List Char) (children : ElList)
/-- The list of children of an element. -/
inductive ElList : Type where
  | nil
  | cons (e : Element) (es : ElList)
end

def Element.tagOf : Element → Tag
  | .mk t _ _ _ _ => t

def Element.attribOf : Element → List (List Char × List Char)
  | .mk _ a _ _ _ => a

def Element.textOf : Element → List Char
  | .mk _ _ t _ _ => t

def Element.tailOf : Element → List Char
  | .mk _ _ _ t _ => t

def Element.childrenOf : Element → ElList
  | .mk _ _ _ _ c => c

/-- Python str.lower restricted to ASCII, applied characterwise. -/
def lower (s : List Char) : List Char := s.map Char.toLower

/-- The set HTML_EMPTY of xml.etree.ElementTree: the recognized void
elements. -/
def htmlEmpty : List (List Char) :=
  [("area".data), ("base".data), ("basefont".data), ("br".data),
   ("col".data), ("embed".data), ("frame".data), ("hr".data),
   ("img".data), ("input".data), ("isindex".data), ("link".data),
   ("meta".data), ("param".data), ("source".data), ("track".data),
   ("wbr".data)]

/-- Strict lexicographic comparison of strings by code point, Python
string less-than. -/
def lcLt : List Char → List Char → Bool
  | [], [] => false
  | [], _ :: _ => true
  | _ :: _, [] => false
  | a :: as, b :: bs =>
      if a.val < b.val then true
      else if b.val < a.val then false
      else lcLt as bs

/-- Non-strict lexicographic order on attribute pairs, Python tuple
comparison used by sorted(items). -/
def pairLe (x y : List Char × List Char) : Bool :=
  if lcLt x.1 y.1 then true
  else if lcLt y.1 x.1 then false
  else !(lcLt y.2 x.2)

/-- Stable insertion into a sorted list of attribute pairs. -/
def insPair (x : List Char × List Char) :
    List (List Char × List Char) → List (List Char × List Char)
  | [] => [x]
  | y :: ys => if pairLe x y then x :: y :: ys else y :: insPair x ys

/-- Stable sort of the attribute list, Python sorted(items). -/
def sortPairs : List (List Char × List Char) → List (List Char × List Char)
  | [] => []
  | x :: xs => insPair x (sortPairs xs)

/-- Serializer output format. -/
inductive Fmt : Type where
  | html
  | xhtml
deriving DecidableEq

/-- Serialization of one attribute in serialize html: the value is escaped
with escape attrib html, and in HTML format an attribute whose key equals
its escaped value is written as the bare escaped value. -/
def serializeAttr (f : Fmt) (k v : List Char) : List Char :=
  let v' := escape_attrib_html v
  if k = v' ∧ f = Fmt.html then ' ' :: v'
  else ' ' :: (k ++ '=' :: '"' :: (v' ++ ['"']))

mutual
/-- The function serialize html of serializers.py, producing the output as
a string rather than through a write callback. -/
def serializeElem (f : Fmt) : Element → List Char
  | .mk tag _attrib text tail children =>
      (match tag with
       | .comment => ("<!--".data) ++ escape_cdata text ++ ("-->".data)
       | .procInstr => ("<?".data) ++ escape_cdata text ++ ("?>".data)
       | .noneTag =>
           (if text.isEmpty then [] else escape_cdata text)
             ++ serializeList f children
       | .named t =>
           '<' :: t
             ++ ((sortPairs _attrib).map (fun kv => serializeAttr f kv.1 kv.2)).flatten
             ++ (if f = Fmt.xhtml ∧ lower t ∈ htmlEmpty then (" />".data)
                 else '>' ::
                   ((if text.isEmpty then []
                     else if lower t = ("script".data) ∨ lower t = ("style".data)
                       then text else escape_cdata text)
                    ++ serializeList f children
                    ++ (if lower t ∈ htmlEmpty then []
                        else ("</".data) ++ t ++ ['>'])))
      ) ++ (if tail.isEmpty then [] else escape_cdata tail)
/-- Serialization of a list of sibling elements in order. -/
def serializeList (f : Fmt) : ElList → List Char
  | .nil => []
  | .cons e es => serializeElem f e ++ serializeList f es
end

/-- The public function to html string. -/
def to_html_string (e : Element) : List Char := serializeElem Fmt.html e

/-- The public function to xhtml string. -/
def to_xhtml_string (e : Element) : List Char := serializeElem Fmt.xhtml e

/-!
The CodeHilite extension (markdown/extensions/codehilite.py).

Modelling notes:
* The Pygments library is an external collaborator.  Its availability is a
  Boolean parameter and the whole Pygments branch of hilite is abstracted
  as a function parameter from the state to the produced markup.
* The linenos option value can be None, a Boolean or a string (table or
  inline); it is modelled by the inductive type Lno, with Python truthiness
  given by Lno.truthy.
* lang prefix is modelled by the field langPfx.
-/

/-- Python whitespace for str.split and the regex class backslash-s
(ASCII part). -/
def isPySpace (c : Char) : Bool :=
  c = ' ' || c = '\t' || c = '\n' || c = '\r' || c = '\x0b' || c = '\x0c'

/-- A word character, the regex class backslash-w (ASCII part). -/
def isWordC (c : Char) : Bool := isAlnumCI c || c = '_'

/-- A character of the lang group of the header regex: word characters
plus hash, dot, plus and minus. -/
def isLangC (c : Char) : Bool :=
  isWordC c || c = '#' || c = '.' || c = '+' || c = '-'

/-- Parsing of an unsigned Python integer literal body: decimal digits
with single underscores allowed between digits. -/
def pyIntGo (acc : Nat) : List Char → Option Nat
  | [] => some acc
  | '_' :: d :: rest =>
      if d.isDigit then pyIntGo (acc * 10 + (d.toNat - '0'.toNat)) rest
      else none
  | '_' :: [] => none
  | d :: rest =>
      if d.isDigit then pyIntGo (acc * 10 + (d.toNat - '0'.toNat)) rest
      else none

/-- Parsing of an unsigned Python integer literal: at least one digit. -/
def pyIntDigits : List Char → Option Nat
  | [] => none
  | c :: rest =>
      if c.isDigit then pyIntGo (c.toNat - '0'.toNat) rest else none

/-- Python int applied to a whitespace-free token: an optional sign
followed by digits, None when the token is malformed. -/
def pyInt : List Char → Option Int
  | '+' :: rest => (pyIntDigits rest).map Int.ofNat
  | '-' :: rest => (pyIntDigits rest).map (fun n => -(n : Int))
  | s => (pyIntDigits s).map Int.ofNat

/-- Helper of pySplit accumulating the current token. -/
def pySplitAux (cur : List Char) : List Char → List (List Char)
  | [] => if cur.isEmpty then [] else [cur.reverse]
  | c :: rest =>
      if isPySpace c then
        if cur.isEmpty then pySplitAux [] rest
        else cur.reverse :: pySplitAux [] rest
      else pySplitAux (c :: cur) rest

/-- Python str.split with no argument: split on whitespace runs, dropping
empty tokens. -/
def pySplit (s : List Char) : List (List Char) := pySplitAux [] s

/-- The function parse hl lines of codehilite.py.  The argument is the
hl lines group of the header match, None when the group did not
participate in the match; a falsy (missing or empty) value and a token
that fails integer parsing both give the empty list. -/
def parse_hl_lines (expr : Option (List Char)) : List Int :=
  match expr with
  | none => []
  | some e =>
      if e.isEmpty then []
      else
        match (pySplit e).mapM pyInt with
        | some l => l
        | none => []

/-- The path group of the header regex, with the backtracking of the
greedy star: zero or more groups of a slash followed by word characters,
then one slash or space.  Returns the matched path text and the rest; fuel
is the length of the input, enough for termination. -/
def matchPathF : Nat → List Char → Option (List Char × List Char)
  | _, [] => none
  | 0, _ => none
  | fuel + 1, c :: rest =>
      if c = '/' then
        let w := rest.takeWhile isWordC
        if w.isEmpty then some (['/'], rest)
        else
          match matchPathF fuel (rest.drop w.length) with
          | some (p, r) => some ('/' :: (w ++ p), r)
          | none => some (['/'], rest)
      else if c = ' ' then some ([' '], rest)
      else none

/-- The optional path group of the header regex. -/
def matchPath (cs : List Char) : Option (List Char × List Char) :=
  matchPathF cs.length cs

/-- Scan for the closing quote of the hl lines group: the lazy dot-star
stops at the first occurrence of the quote character and cannot cross a
newline.  Returns the content before the quote and the rest after it. -/
def findChar (q : Char) : List Char → Option (List Char × List Char)
  | [] => none
  | c :: rest =>
      if c = q then some ([], rest)
      else if c = '\n' then none
      else (findChar q rest).map (fun pr => (c :: pr.1, pr.2))

/-- The optional hl lines group: the literal text hl lines equals-sign, a
single or double quote, lazily matched content, and the same quote. -/
def matchHlLines (r : List Char) : Option (List Char) :=
  if ("hl_lines=".data).isPrefixOf r then
    match r.drop 9 with
    | q :: r6 =>
        if q = '"' ∨ q = '\'' then (findChar q r6).map Prod.fst else none
    | [] => none
  else none

/-- The result of matching the header regex of parseHeader against the
first line: the shebang group, the optional path group, the lang group
(possibly empty) and the optional hl lines group. -/
structure HeaderMatch where
  shebang : Bool
  path : Option (List Char)
  lang : List Char
  hl_lines : Option (List Char)
deriving DecidableEq

/-- The anchored search of the header regex of parseHeader on the first
line: two or more colons or a hash-bang, an optional path, the language
token, arbitrary whitespace and an optional quoted hl lines option. -/
def matchHeader (fl : List Char) : Option HeaderMatch :=
  let pfx : Option (Bool × List Char) :=
    match fl with
    | ':' :: ':' :: rest => some (false, rest.dropWhile (fun c => c = ':'))
    | '#' :: '!' :: rest => some (true, rest)
    | _ => none
  match pfx with
  | none => none
  | some (sheb, r1) =>
      let pr : Option (List Char) × List Char :=
        match matchPath r1 with
        | some (p, r) => (some p, r)
        | none => (none, r1)
      let lang := pr.2.takeWhile isLangC
      let r3 := pr.2.dropWhile isLangC
      let r4 := r3.dropWhile isPySpace
      some { shebang := sheb, path := pr.1, lang := lang,
             hl_lines := matchHlLines r4 }

/-- The value of the linenos option: None, a Boolean, or a string such as
table or inline. -/
inductive Lno : Type where
  | noneV
  | boolV (b : Bool)
  | strV (s : List Char)
deriving DecidableEq

/-- Python truthiness of a linenos value. -/
def Lno.truthy : Lno → Bool
  | .noneV => false
  | .boolV b => b
  | .strV s => !s.isEmpty

/-- Python truthiness of the lang attribute (None and the empty string
are falsy). -/
def langTruthy : Option (List Char) → Bool
  | none => false
  | some l => !l.isEmpty

/-- The state of a CodeHilite instance: the source and the options used by
the non-Pygments paths.  The field langPfx is the lang prefix option. -/
structure CHState where
  src : List Char
  lang : Option (List Char)
  guess_lang : Bool
  use_pygments : Bool
  langPfx : List Char
  linenos : Lno
  cssclass : List Char
  hl_lines : List Int
deriving DecidableEq

/-- Python str.split on the newline character. -/
def splitNl : List Char → List (List Char)
  | [] => [[]]
  | '\n' :: rest => [] :: splitNl rest
  | c :: rest =>
      match splitNl rest with
      | l :: ls => (c :: l) :: ls
      | [] => [[c]]

/-- Python newline join of a list of lines. -/
def joinNl : List (List Char) → List Char
  | [] => []
  | [l] => l
  | l :: ls => l ++ '\n' :: joinNl ls

/-- Python str.strip with the newline character: remove leading and
trailing newlines. -/
def stripNl (s : List Char) : List Char :=
  ((s.dropWhile (fun c => c = '\n')).reverse.dropWhile (fun c => c = '\n')).reverse

/-- The method parseHeader of CodeHilite: examine the first line for a
mock shebang or colons, take the language (lowercased), keep the first
line only when a path is present, default line numbering on for the
hash-bang form when the linenos option is unset, and parse the hl lines
option. -/
def parseHeader (st : CHState) : CHState :=
  match splitNl st.src with
  | [] => st
  | fl :: rest =>
      match matchHeader fl with
      | some m =>
          let lines := if m.path.isSome then fl :: rest else rest
          { st with
            lang := some (lower m.lang),
            linenos :=
              if st.linenos = Lno.noneV ∧ m.shebang then Lno.boolV true
              else st.linenos,
            hl_lines := parse_hl_lines m.hl_lines,
            src := stripNl (joinNl lines) }
      | none => { st with src := stripNl (joinNl (fl :: rest)) }

/-- Space-separated join of the class list. -/
def joinSpace : List (List Char) → List Char
  | [] => []
  | [x] => x
  | x :: xs => x ++ ' ' :: joinSpace xs

/-- The method hilite of CodeHilite.  The availability of Pygments and the
whole Pygments branch (lexer and formatter resolution and the external
highlight call) are parameters; the non-Pygments branch escapes the four
special characters in order and wraps the text in pre and code markup
carrying the CSS classes. -/
def hiliteM (pygAvailable : Bool) (ext : CHState → List Char) (sheb : Bool)
    (st : CHState) : List Char :=
  let st1 := { st with src := stripNl st.src }
  let st2 := if st1.lang.isNone && sheb then parseHeader st1 else st1
  if pygAvailable && st2.use_pygments then ext st2
  else
    let txt :=
      replChar '"' ("&quot;".data)
        (replChar '>' ("&gt;".data)
          (replChar '<' ("&lt;".data)
            (replChar '&' ("&amp;".data) st2.src)))
    let classes :=
      (if langTruthy st2.lang then [st2.langPfx ++ st2.lang.getD []] else [])
        ++ (if st2.linenos.truthy then [("linenums".data)] else [])
    let class_str :=
      if classes.isEmpty then []
      else (" class=\"".data) ++ joinSpace classes ++ ['"']
    ("<pre class=\"".data) ++ st2.cssclass ++ ("\"><code".data) ++ class_str
      ++ '>' :: (txt ++ '\n' :: ("</code></pre>\n".data))

/-- The first leftmost-scan replacement of code unescape: the four
characters of the lt entity become a less-than sign. -/
def unescLt : List Char → List Char
  | '&' :: 'l' :: 't' :: ';' :: rest => '<' :: unescLt rest
  | c :: rest => c :: unescLt rest
  | [] => []

/-- The second replacement of code unescape: the gt entity becomes a
greater-than sign. -/
def unescGt : List Char → List Char
  | '&' :: 'g' :: 't' :: ';' :: rest => '>' :: unescGt rest
  | c :: rest => c :: unescGt rest
  | [] => []

/-- The third replacement of code unescape: the amp entity becomes an
ampersand, performed last to avoid conflicting with the previous two. -/
def unescAmp : List Char → List Char
  | '&' :: 'a' :: 'm' :: 'p' :: ';' :: rest => '&' :: unescAmp rest
  | c :: rest => c :: unescAmp rest
  | [] => []

/-- The method code unescape of HiliteTreeprocessor: undo the lt, gt and
amp entities in that order. -/
def code_unescape (s : List Char) : List Char := unescAmp (unescGt (unescLt s))

/-- Modelled from the spec: the placeholder token returned by the Stash
store operation (the htmlStash of markdown/util.py, which is not part of
the sources under verification).  Per the spec it is a fixed-format opaque
string embedding the insertion index between sentinel characters; the
repository bug reports show the sentinel text wzxhzdk. -/
def placeholder (n : Nat) : List Char :=
  '\x02' :: ("wzxhzdk:".data) ++ Nat.toDigits 10 n ++ ['\x03']

/-- The test of HiliteTreeprocessor.run: an element (already known to
carry the pre tag through the tree iteration filter) with exactly one
child whose tag is code. -/
def isHiliteBlock : Element → Bool
  | .mk tag _ _ _ (.cons (.mk ctag _ _ _ _) .nil) =>
      decide (tag = Tag.named ("pre".data))
        && decide (ctag = Tag.named ("code".data))
  | _ => false

/-- The text of the first child of an element, block index zero text. -/
def childTextOf : ElList → List Char
  | .cons (.mk _ _ t _ _) _ => t
  | .nil => []

mutual
/-- The method run of HiliteTreeprocessor as a tree transformation.  The
parameter hil abstracts the construction of a CodeHilite instance over the
unescaped code text and its hilite call; stash is the list of fragments
already stored.  A matched block is cleared (attributes, tail and children
removed), retagged as a paragraph and given the placeholder as text; the
cleared children are not visited, matching the lazy tree iteration over
the mutated tree. -/
def runElem (hil : List Char → List Char) (stash : List (List Char)) :
    Element → Element × List (List Char)
  | .mk tag attrib text tail children =>
      if isHiliteBlock (.mk tag attrib text tail children) then
        (Element.mk (Tag.named ("p".data)) [] (placeholder stash.length) []
           ElList.nil,
         stash ++ [hil (code_unescape (childTextOf children))])
      else
        let pl := runList hil stash children
        (Element.mk tag attrib text tail pl.1, pl.2)
/-- The traversal of run over a list of siblings in document order,
threading the stash. -/
def runList (hil : List Char → List Char) (stash : List (List Char)) :
    ElList → ElList × List (List Char)
  | .nil => (ElList.nil, stash)
  | .cons e es =>
      let p1 := runElem hil stash e
      let p2 := runList hil p1.2 es
      (ElList.cons p1.1 p2.1, p2.2)
end

mutual
/-- Whether the tree contains a block matched by run. -/
def hasHiliteBlock : Element → Bool
  | .mk tag attrib text tail children =>
      isHiliteBlock (.mk tag attrib text tail children)
        || hasHiliteBlockL children
/-- Whether a list of trees contains a block matched by run. -/
def hasHiliteBlockL : ElList → Bool
  | .nil => false
  | .cons e es => hasHiliteBlock e || hasHiliteBlockL es
end

/-! Helper lemmas about the replacement functions. -/

theorem replChar_nil (c : Char) (rep : List Char) : replChar c rep [] = [] := rfl

theorem replChar_cons (c : Char) (rep : List Char) (d : Char) (t : List Char) :
    replChar c rep (d :: t)
      = if d = c then rep ++ replChar c rep t else d :: replChar c rep t := rfl

theorem replChar_append (c : Char) (rep : List Char) (a b : List Char) :
    replChar c rep (a ++ b) = replChar c rep a ++ replChar c rep b := by
  induction a with
  | nil => rfl
  | cons d t ih =>
      simp only [List.cons_append, replChar_cons, ih]
      by_cases h : d = c <;> simp [h]

theorem not_mem_replChar_self (c : Char) (rep : List Char) (hc : c ∉ rep) :
    ∀ t, c ∉ replChar c rep t := by
  intro t
  induction t with
  | nil => simp [replChar]
  | cons d t ih =>
      rw [replChar_cons]
      by_cases h : d = c
      · simp only [if_pos h]
        intro hmem
        rcases List.mem_append.mp hmem with h1 | h1
        · exact hc h1
        · exact ih h1
      · simp only [if_neg h]
        intro hmem
        rcases List.mem_cons.mp hmem with h1 | h1
        · exact h (h1.symm)
        · exact ih h1

theorem not_mem_replChar (c : Char) (rep : List Char) (a : Char)
    (ha : a ∉ rep) : ∀ t, a ∉ t → a ∉ replChar c rep t := by
  intro t
  induction t with
  | nil => intro _; simp [replChar]
  | cons d t ih =>
      intro hat
      rw [replChar_cons]
      have had : a ≠ d := fun h => hat (h ▸ List.mem_cons_self d t)
      have hat' : a ∉ t := fun h => hat (List.mem_cons_of_mem d h)
      by_cases h : d = c
      · simp only [if_pos h]
        intro hmem
        rcases List.mem_append.mp hmem with h1 | h1
        · exact ha h1
        · exact ih hat' h1
      · simp only [if_neg h]
        intro hmem
        rcases List.mem_cons.mp hmem with h1 | h1
        · exact had h1
        · exact ih hat' h1

theorem mem_replChar_of_mem (c : Char) (rep : List Char) (a : Char)
    (hac : a ≠ c) : ∀ t, a ∈ t → a ∈ replChar c rep t := by
  intro t
  induction t with
  | nil => intro h; simp at h
  | cons d t ih =>
      intro hat
      rw [replChar_cons]
      rcases List.mem_cons.mp hat with h1 | h1
      · have hdc : d ≠ c := h1 ▸ hac
        simp only [if_neg hdc]
        exact h1 ▸ List.mem_cons_self d (replChar c rep t)
      · by_cases h : d = c
        · simp only [if_pos h]
          exact List.mem_append.mpr (Or.inr (ih h1))
        · simp only [if_neg h]
          exact List.mem_cons_of_mem d (ih h1)

theorem replChar_no_hit_append (c : Char) (rep : List Char) (pre : List Char)
    (hpre : ∀ x ∈ pre, x ≠ c) (s : List Char) :
    replChar c rep (pre ++ s) = pre ++ replChar c rep s := by
  induction pre with
  | nil => rfl
  | cons d t ih =>
      have hd : d ≠ c := hpre d (List.mem_cons_self d t)
      have ht : ∀ x ∈ t, x ≠ c := fun x hx => hpre x (List.mem_cons_of_mem d hx)
      simp only [List.cons_append, replChar_cons, if_neg hd, ih ht]

theorem reAmpSub_cons (c : Char) (t : List Char) :
    reAmpSub (c :: t)
      = if c = '&' then
          (if refAfterAmp t then '&' :: reAmpSub t
           else '&' :: 'a' :: 'm' :: 'p' :: ';' :: reAmpSub t)
        else c :: reAmpSub t := rfl

theorem reAmpSub_no_amp_append (pre : List Char)
    (hpre : ∀ x ∈ pre, x ≠ '&') (s : List Char) :
    reAmpSub (pre ++ s) = pre ++ reAmpSub s := by
  induction pre with
  | nil => rfl
  | cons d t ih =>
      have hd : d ≠ '&' := hpre d (List.mem_cons_self d t)
      have ht : ∀ x ∈ t, x ≠ '&' := fun x hx => hpre x (List.mem_cons_of_mem d hx)
      simp only [List.cons_append, reAmpSub_cons, if_neg hd, ih ht]

theorem mem_reAmpSub_of_mem (a : Char) (ha : a ≠ '&') :
    ∀ t, a ∈ t → a ∈ reAmpSub t := by
  intro t
  induction t with
  | nil => intro h; simp at h
  | cons d t ih =>
      intro hat
      rw [reAmpSub_cons]
      rcases List.mem_cons.mp hat with h1 | h1
      · have hd : d ≠ '&' := h1 ▸ ha
        simp only [if_neg hd]
        exact h1 ▸ List.mem_cons_self d (reAmpSub t)
      · by_cases hd : d = '&'
        · simp only [if_pos hd]
          by_cases hr : refAfterAmp t
          · simp only [if_pos hr]
            exact List.mem_cons_of_mem _ (ih h1)
          · simp only [if_neg hr]
            exact List.mem_cons_of_mem _ (List.mem_cons_of_mem _
              (List.mem_cons_of_mem _ (List.mem_cons_of_mem _
                (List.mem_cons_of_mem _ (ih h1)))))
        · simp only [if_neg hd]
          exact List.mem_cons_of_mem d (ih h1)

/-! The code unescape round trip (claim C9). -/

theorem unescLt_cons_ne (c : Char) (t : List Char) (h : c ≠ '&') :
    unescLt (c :: t) = c :: unescLt t := by
  conv_lhs => rw [unescLt.eq_def]
  split
  · rename_i heq
    injection heq with h1 h2
    exact absurd h1 h
  · rename_i heq
    injection heq with h1 h2
    rw [h1, h2]
  · rename_i heq
    simp at heq

theorem unescGt_cons_ne (c : Char) (t : List Char) (h : c ≠ '&') :
    unescGt (c :: t) = c :: unescGt t := by
  conv_lhs => rw [unescGt.eq_def]
  split
  · rename_i heq
    injection heq with h1 h2
    exact absurd h1 h
  · rename_i heq
    injection heq with h1 h2
    rw [h1, h2]
  · rename_i heq
    simp at heq

theorem unescAmp_cons_ne (c : Char) (t : List Char) (h : c ≠ '&') :
    unescAmp (c :: t) = c :: unescAmp t := by
  conv_lhs => rw [unescAmp.eq_def]
  split
  · rename_i heq
    injection heq with h1 h2
    exact absurd h1 h
  · rename_i heq
    injection heq with h1 h2
    rw [h1, h2]
  · rename_i heq
    simp at heq

theorem code_unescape_amp (Z : List Char) :
    code_unescape (("&amp;".data) ++ Z) = '&' :: code_unescape Z := rfl

theorem code_unescape_lt (Z : List Char) :
    code_unescape (("&lt;".data) ++ Z) = '<' :: code_unescape Z := rfl

theorem code_unescape_gt (Z : List Char) :
    code_unescape (("&gt;".data) ++ Z) = '>' :: code_unescape Z := rfl

theorem code_unescape_cons_ne (c : Char) (Z : List Char) (h : c ≠ '&') :
    code_unescape (c :: Z) = c :: code_unescape Z := by
  unfold code_unescape
  rw [unescLt_cons_ne c Z h, unescGt_cons_ne c (unescLt Z) h,
    unescAmp_cons_ne c (unescGt (unescLt Z)) h]

theorem replChar_lt_amp (Y : List Char) :
    replChar '<' ("&lt;".data) (("&amp;".data) ++ Y)
      = ("&amp;".data) ++ replChar '<' ("&lt;".data) Y := rfl

theorem replChar_gt_amp (Y : List Char) :
    replChar '>' ("&gt;".data) (("&amp;".data) ++ Y)
      = ("&amp;".data) ++ replChar '>' ("&gt;".data) Y := rfl

theorem replChar_gt_lt (Y : List Char) :
    replChar '>' ("&gt;".data) (("&lt;".data) ++ Y)
      = ("&lt;".data) ++ replChar '>' ("&gt;".data) Y := rfl

/-- The escaping performed by the non-Pygments fallback of hilite,
restricted to the first three replacements (ampersand, less-than,
greater-than). -/
def escCodeFallback (s : List Char) : List Char :=
  replChar '>' ("&gt;".data)
    (replChar '<' ("&lt;".data)
      (replChar '&' ("&amp;".data) s))

theorem escCodeFallback_cons_amp (s : List Char) :
    escCodeFallback ('&' :: s) = ("&amp;".data) ++ escCodeFallback s := by
  unfold escCodeFallback
  rw [replChar_cons, if_pos rfl, replChar_lt_amp, replChar_gt_amp]

theorem escCodeFallback_cons_lt (s : List Char) :
    escCodeFallback ('<' :: s) = ("&lt;".data) ++ escCodeFallback s := by
  unfold escCodeFallback
  rw [replChar_cons, if_neg (by decide), replChar_cons, if_pos rfl,
    replChar_gt_lt]

theorem escCodeFallback_cons_gt (s : List Char) :
    escCodeFallback ('>' :: s) = ("&gt;".data) ++ escCodeFallback s := by
  unfold escCodeFallback
  rw [replChar_cons, if_neg (by decide), replChar_cons, if_neg (by decide),
    replChar_cons, if_pos rfl]

theorem escCodeFallback_cons_ne (c : Char) (s : List Char)
    (h1 : c ≠ '&') (h2 : c ≠ '<') (h3 : c ≠ '>') :
    escCodeFallback (c :: s) = c :: escCodeFallback s := by
  unfold escCodeFallback
  rw [replChar_cons, if_neg h1, replChar_cons, if_neg h2,
    replChar_cons, if_neg h3]

theorem code_unescape_escCodeFallback (s : List Char) :
    code_unescape (escCodeFallback s) = s := by
  induction s with
  | nil => rfl
  | cons c s ih =>
      by_cases h1 : c = '&'
      · rw [h1, escCodeFallback_cons_amp, code_unescape_amp, ih]
      · by_cases h2 : c = '<'
        · rw [h2, escCodeFallback_cons_lt, code_unescape_lt, ih]
        · by_cases h3 : c = '>'
          · rw [h3, escCodeFallback_cons_gt, code_unescape_gt, ih]
          · rw [escCodeFallback_cons_ne c s h1 h2 h3,
              code_unescape_cons_ne c _ h1, ih]

/-! The escaping invariant: every ampersand in escaped output begins a
character reference (claims C1 and C8). -/

theorem takeWhile_run_append (p : Char → Bool) (run : List Char) (c : Char)
    (suf : List Char) (hr : ∀ x ∈ run, p x = true) (hc : p c = false) :
    (run ++ c :: suf).takeWhile p = run := by
  induction run with
  | nil => simp [List.takeWhile_cons, hc]
  | cons d t ih =>
      have hd : p d = true := hr d (List.mem_cons_self d t)
      have ht : ∀ x ∈ t, p x = true := fun x hx => hr x (List.mem_cons_of_mem d hx)
      simp [List.takeWhile_cons, hd, ih ht]

theorem dropWhile_run_append (p : Char → Bool) (run : List Char) (c : Char)
    (suf : List Char) (hr : ∀ x ∈ run, p x = true) (hc : p c = false) :
    (run ++ c :: suf).dropWhile p = c :: suf := by
  induction run with
  | nil => simp [List.dropWhile_cons, hc]
  | cons d t ih =>
      have hd : p d = true := hr d (List.mem_cons_self d t)
      have ht : ∀ x ∈ t, p x = true := fun x hx => hr x (List.mem_cons_of_mem d hx)
      simp [List.dropWhile_cons, hd, ih ht]

theorem refAfterAmp_hash (rest : List Char) :
    refAfterAmp ('#' :: rest)
      = (((!(rest.takeWhile isDec).isEmpty) && headIs ';' (rest.dropWhile isDec))
         || (match rest with
             | x :: rest2 =>
                 (x = 'x' || x = 'X') && (!(rest2.takeWhile isHexCI).isEmpty)
                   && headIs ';' (rest2.dropWhile isHexCI)
             | [] => false)) := rfl

theorem refAfterAmp_cons_ne_hash (c : Char) (t : List Char) (h : c ≠ '#') :
    refAfterAmp (c :: t)
      = ((!((c :: t).takeWhile isAlnumCI).isEmpty)
          && headIs ';' ((c :: t).dropWhile isAlnumCI)) := by
  conv_lhs => rw [refAfterAmp.eq_def]
  split
  · rename_i heq
    injection heq with h1 h2
    exact absurd h1 h
  · rfl

theorem refAfterAmp_hash_cons (x : Char) (rest2 : List Char) :
    refAfterAmp ('#' :: x :: rest2)
      = (((!((x :: rest2).takeWhile isDec).isEmpty)
            && headIs ';' ((x :: rest2).dropWhile isDec))
         || ((x = 'x' || x = 'X') && (!(rest2.takeWhile isHexCI).isEmpty)
              && headIs ';' (rest2.dropWhile isHexCI))) := rfl

theorem isDec_isRefBody (x : Char) (h : isDec x = true) : isRefBody x = true := by
  unfold isRefBody isAlnumCI
  unfold isDec at h
  simp [h]

theorem isHexCI_isAlnumCI (x : Char) (h : isHexCI x = true) :
    isAlnumCI x = true := by
  unfold isHexCI at h
  unfold isAlnumCI
  simp only [Bool.or_eq_true, Bool.and_eq_true, decide_eq_true_eq] at h ⊢
  rcases h with (h | h) | h
  · exact Or.inl (Or.inl h)
  · exact Or.inl (Or.inr ⟨h.1, le_trans h.2 (by decide)⟩)
  · exact Or.inr ⟨h.1, le_trans h.2 (by decide)⟩

theorem isAlnumCI_isRefBody (x : Char) (h : isAlnumCI x = true) :
    isRefBody x = true := by
  unfold isRefBody
  simp [h]

theorem headIs_semi (l : List Char) (h : headIs ';' l = true) :
    ∃ suf, l = ';' :: suf := by
  cases l with
  | nil => exact absurd h (by decide)
  | cons x xs =>
      have hx : x = ';' := by
        have : (decide (x = ';')) = true := h
        exact of_decide_eq_true this
      exact ⟨xs, by rw [hx]⟩

theorem refAfterAmp_decomp (cs : List Char) (h : refAfterAmp cs = true) :
    ∃ body suf, cs = body ++ ';' :: suf ∧ (∀ x ∈ body, isRefBody x = true) ∧
      ∀ suf', refAfterAmp (body ++ ';' :: suf') = true := by
  cases cs with
  | nil => exact absurd h (by decide)
  | cons c rest =>
      by_cases hc : c = '#'
      · subst hc
        rw [refAfterAmp_hash] at h
        rw [Bool.or_eq_true] at h
        rcases h with h1 | h2
        · rw [Bool.and_eq_true] at h1
          obtain ⟨hne, hsemi⟩ := h1
          obtain ⟨suf, hdw⟩ := headIs_semi _ hsemi
          have hrun : ∀ x ∈ rest.takeWhile isDec, isDec x = true :=
            fun x hx => List.mem_takeWhile_imp hx
          have hrest : rest = rest.takeWhile isDec ++ ';' :: suf := by
            conv_lhs => rw [← List.takeWhile_append_dropWhile (p := isDec) (l := rest)]
            rw [hdw]
          refine ⟨'#' :: rest.takeWhile isDec, suf, ?_, ?_, ?_⟩
          · rw [List.cons_append, ← hrest]
          · intro x hx
            rcases List.mem_cons.mp hx with h1 | h1
            · rw [h1]; decide
            · exact isDec_isRefBody x (hrun x h1)
          · intro suf'
            rw [List.cons_append, refAfterAmp_hash,
              takeWhile_run_append isDec _ ';' suf' hrun (by decide),
              dropWhile_run_append isDec _ ';' suf' hrun (by decide)]
            rw [hrest] at hne
            rw [takeWhile_run_append isDec _ ';' suf hrun (by decide)] at hne
            simp [hne, headIs]
        · cases rest with
          | nil => exact absurd h2 (by decide)
          | cons x rest2 =>
              simp only [Bool.and_eq_true] at h2
              obtain ⟨⟨hxx, hne⟩, hsemi⟩ := h2
              obtain ⟨suf, hdw⟩ := headIs_semi _ hsemi
              have hrun : ∀ y ∈ rest2.takeWhile isHexCI, isHexCI y = true :=
                fun y hy => List.mem_takeWhile_imp hy
              have hrest2 : rest2 = rest2.takeWhile isHexCI ++ ';' :: suf := by
                conv_lhs =>
                  rw [← List.takeWhile_append_dropWhile (p := isHexCI) (l := rest2)]
                rw [hdw]
              refine ⟨'#' :: x :: rest2.takeWhile isHexCI, suf, ?_, ?_, ?_⟩
              · rw [List.cons_append, List.cons_append, ← hrest2]
              · intro y hy
                rcases List.mem_cons.mp hy with h1 | h1
                · rw [h1]; decide
                · rcases List.mem_cons.mp h1 with h3 | h3
                  · rw [Bool.or_eq_true, decide_eq_true_eq, decide_eq_true_eq] at hxx
                    rcases hxx with hx' | hx' <;> rw [h3, hx'] <;> decide
                  · exact isAlnumCI_isRefBody y (isHexCI_isAlnumCI y (hrun y h3))
              · intro suf'
                rw [List.cons_append, List.cons_append, refAfterAmp_hash_cons]
                rw [takeWhile_run_append isHexCI _ ';' suf' hrun (by decide),
                  dropWhile_run_append isHexCI _ ';' suf' hrun (by decide)]
                rw [hrest2] at hne
                rw [takeWhile_run_append isHexCI _ ';' suf hrun (by decide)] at hne
                simp [hne, headIs, hxx]
      · rw [refAfterAmp_cons_ne_hash c rest hc] at h
        rw [Bool.and_eq_true] at h
        obtain ⟨hne, hsemi⟩ := h
        obtain ⟨suf, hdw⟩ := headIs_semi _ hsemi
        have hrun : ∀ x ∈ (c :: rest).takeWhile isAlnumCI, isAlnumCI x = true :=
          fun x hx => List.mem_takeWhile_imp hx
        have hcs : c :: rest = (c :: rest).takeWhile isAlnumCI ++ ';' :: suf := by
          conv_lhs =>
            rw [← List.takeWhile_append_dropWhile (p := isAlnumCI) (l := c :: rest)]
          rw [hdw]
        refine ⟨(c :: rest).takeWhile isAlnumCI, suf, hcs, ?_, ?_⟩
        · intro x hx
          exact isAlnumCI_isRefBody x (hrun x hx)
        · intro suf'
          cases hr : (c :: rest).takeWhile isAlnumCI with
          | nil => rw [hr] at hne; exact absurd hne (by decide)
          | cons r0 run1 =>
              have hr0 : isAlnumCI r0 = true := by
                apply hrun
                rw [hr]
                exact List.mem_cons_self r0 run1
              have hr0h : r0 ≠ '#' := by
                intro heq
                rw [heq] at hr0
                exact absurd hr0 (by decide)
              have hrun' : ∀ x ∈ r0 :: run1, isAlnumCI x = true := by
                intro x hx
                apply hrun
                rw [hr]
                exact hx
              rw [List.cons_append, refAfterAmp_cons_ne_hash r0 _ hr0h,
                ← List.cons_append,
                takeWhile_run_append isAlnumCI _ ';' suf' hrun' (by decide),
                dropWhile_run_append isAlnumCI _ ';' suf' hrun' (by decide)]
              simp [headIs]

theorem ampsOk_cons (c : Char) (t : List Char) :
    ampsOk (c :: t)
      = ((if c = '&' then refAfterAmp t else true) && ampsOk t) := rfl

theorem ampsOk_amp_entity (X : List Char) :
    ampsOk (("&amp;".data) ++ X) = ampsOk X := rfl

theorem ampsOk_lt_entity (X : List Char) :
    ampsOk (("&lt;".data) ++ X) = ampsOk X := rfl

theorem ampsOk_gt_entity (X : List Char) :
    ampsOk (("&gt;".data) ++ X) = ampsOk X := rfl

theorem ampsOk_quot_entity (X : List Char) :
    ampsOk (("&quot;".data) ++ X) = ampsOk X := rfl

theorem ampsOk_num10_entity (X : List Char) :
    ampsOk (("&#10;".data) ++ X) = ampsOk X := rfl

theorem isRefBody_ne_amp (x : Char) (h : isRefBody x = true) : x ≠ '&' := by
  intro heq
  rw [heq] at h
  exact absurd h (by decide)

theorem reAmpSub_ref_tail (t : List Char) (h : refAfterAmp t = true) :
    ∃ body suf, reAmpSub t = body ++ ';' :: reAmpSub suf ∧
      refAfterAmp (body ++ ';' :: reAmpSub suf) = true := by
  obtain ⟨body, suf, hbs, hbody, hre⟩ := refAfterAmp_decomp t h
  refine ⟨body, suf, ?_, hre (reAmpSub suf)⟩
  rw [hbs, show body ++ ';' :: suf = (body ++ [';']) ++ suf by simp]
  rw [reAmpSub_no_amp_append (body ++ [';']) ?_ suf]
  · simp
  · intro x hx
    rcases List.mem_append.mp hx with h1 | h1
    · exact isRefBody_ne_amp x (hbody x h1)
    · simp only [List.mem_singleton] at h1
      rw [h1]; decide

theorem ampsOk_reAmpSub (t : List Char) : ampsOk (reAmpSub t) = true := by
  induction t with
  | nil => rfl
  | cons c t ih =>
      rw [reAmpSub_cons]
      by_cases hc : c = '&'
      · rw [if_pos hc]
        by_cases hr : refAfterAmp t
        · rw [if_pos hr, ampsOk_cons, if_pos rfl]
          obtain ⟨body, suf, heq, hra⟩ := reAmpSub_ref_tail t hr
          rw [heq] at ih ⊢
          rw [hra, ih]
          rfl
        · rw [if_neg hr]
          rw [show ('&' :: 'a' :: 'm' :: 'p' :: ';' :: reAmpSub t)
              = ("&amp;".data) ++ reAmpSub t from rfl, ampsOk_amp_entity]
          exact ih
      · rw [if_neg hc, ampsOk_cons, if_neg hc, ih]
        rfl

theorem ampsOk_replChar (c : Char) (rep : List Char)
    (hcb : isRefBody c = false) (hsemi : c ≠ ';')
    (hrep : ∀ X, ampsOk (rep ++ X) = ampsOk X) :
    ∀ t, ampsOk t = true → ampsOk (replChar c rep t) = true := by
  intro t
  induction t with
  | nil => intro _; rfl
  | cons d t ih =>
      intro h
      rw [ampsOk_cons, Bool.and_eq_true] at h
      obtain ⟨h1, h2⟩ := h
      rw [replChar_cons]
      by_cases hd : d = c
      · rw [if_pos hd, hrep (replChar c rep t)]
        exact ih h2
      · rw [if_neg hd, ampsOk_cons, ih h2, Bool.and_true]
        by_cases hda : d = '&'
        · rw [if_pos hda]
          rw [if_pos hda] at h1
          obtain ⟨body, suf, hbs, hbody, hre⟩ := refAfterAmp_decomp t h1
          have hpass : replChar c rep t = body ++ ';' :: replChar c rep suf := by
            rw [hbs, show body ++ ';' :: suf = (body ++ [';']) ++ suf by simp]
            rw [replChar_no_hit_append c rep (body ++ [';']) ?_ suf]
            · simp
            · intro x hx
              rcases List.mem_append.mp hx with hx1 | hx1
              · intro heq
                rw [heq] at hx1
                exact absurd (hbody c hx1) (by simp [hcb])
              · simp only [List.mem_singleton] at hx1
                rw [hx1]
                exact fun heq => hsemi heq.symm
          rw [hpass]
          exact hre (replChar c rep suf)
        · rw [if_neg hda]

theorem ampsOk_escape_cdata (t : List Char) :
    ampsOk (escape_cdata t) = true := by
  unfold escape_cdata
  exact ampsOk_replChar '<' ("&lt;".data) (by decide) (by decide)
    ampsOk_lt_entity (reAmpSub t) (ampsOk_reAmpSub t)

theorem ampsOk_escape_attrib_html (t : List Char) :
    ampsOk (escape_attrib_html t) = true := by
  unfold escape_attrib_html
  apply ampsOk_replChar '"' ("&quot;".data) (by decide) (by decide)
    ampsOk_quot_entity
  apply ampsOk_replChar '>' ("&gt;".data) (by decide) (by decide)
    ampsOk_gt_entity
  exact ampsOk_replChar '<' ("&lt;".data) (by decide) (by decide)
    ampsOk_lt_entity (reAmpSub t) (ampsOk_reAmpSub t)

theorem not_mem_escape_cdata_lt (t : List Char) : '<' ∉ escape_cdata t :=
  not_mem_replChar_self '<' ("&lt;".data) (by decide) (reAmpSub t)

theorem not_mem_escape_attrib_html_lt (t : List Char) :
    '<' ∉ escape_attrib_html t := by
  unfold escape_attrib_html
  apply not_mem_replChar '"' ("&quot;".data) '<' (by decide)
  apply not_mem_replChar '>' ("&gt;".data) '<' (by decide)
  exact not_mem_replChar_self '<' ("&lt;".data) (by decide) (reAmpSub t)

theorem not_mem_escape_attrib_html_gt (t : List Char) :
    '>' ∉ escape_attrib_html t := by
  unfold escape_attrib_html
  apply not_mem_replChar '"' ("&quot;".data) '>' (by decide)
  exact not_mem_replChar_self '>' ("&gt;".data) (by decide) _

theorem not_mem_escape_attrib_html_quot (t : List Char) :
    '"' ∉ escape_attrib_html t := by
  unfold escape_attrib_html
  exact not_mem_replChar_self '"' ("&quot;".data) (by decide) _

theorem newline_mem_escape_attrib_html (t : List Char) (h : '\n' ∈ t) :
    '\n' ∈ escape_attrib_html t := by
  unfold escape_attrib_html
  apply mem_replChar_of_mem '"' ("&quot;".data) '\n' (by decide)
  apply mem_replChar_of_mem '>' ("&gt;".data) '\n' (by decide)
  apply mem_replChar_of_mem '<' ("&lt;".data) '\n' (by decide)
  exact mem_reAmpSub_of_mem '\n' (by decide) t h

theorem not_mem_escape_attrib_newline (t : List Char) :
    '\n' ∉ escape_attrib t := by
  unfold escape_attrib
  exact not_mem_replChar_self '\n' ("&#10;".data) (by decide) _

theorem escape_cdata_ref_head (r : List Char) (h : refAfterAmp r = true) :
    escape_cdata ('&' :: r) = '&' :: escape_cdata r := by
  unfold escape_cdata
  rw [reAmpSub_cons, if_pos rfl, if_pos h, replChar_cons, if_neg (by decide)]

/-! Frame lemmas for the tree transformation run. -/

mutual
theorem runElem_noMatch (hil : List Char → List Char) :
    ∀ (stash : List (List Char)) (e : Element), hasHiliteBlock e = false →
      runElem hil stash e = (e, stash)
  | stash, .mk tag attrib text tail children, h => by
      have h' : (isHiliteBlock (.mk tag attrib text tail children)
          || hasHiliteBlockL children) = false := h
      rw [Bool.or_eq_false_iff] at h'
      obtain ⟨h1, h2⟩ := h'
      rw [runElem]
      rw [if_neg (by simp [h1])]
      rw [runList_noMatch hil stash children h2]
theorem runList_noMatch (hil : List Char → List Char) :
    ∀ (stash : List (List Char)) (es : ElList), hasHiliteBlockL es = false →
      runList hil stash es = (es, stash)
  | _, .nil, _ => rfl
  | stash, .cons e es, h => by
      have h' : (hasHiliteBlock e || hasHiliteBlockL es) = false := h
      rw [Bool.or_eq_false_iff] at h'
      obtain ⟨h1, h2⟩ := h'
      rw [runList]
      rw [runElem_noMatch hil stash e h1]
      rw [runList_noMatch hil stash es h2]
end

theorem runElem_unmatched_fields (hil : List Char → List Char)
    (stash : List (List Char)) (tag : Tag)
    (attrib : List (List Char × List Char)) (text tail : List Char)
    (children : ElList)
    (h : isHiliteBlock (.mk tag attrib text tail children) = false) :
    runElem hil stash (.mk tag attrib text tail children)
      = (Element.mk tag attrib text tail
          (runList hil stash children).1, (runList hil stash children).2) := by
  rw [runElem, if_neg (by simp [h])]

/-! Claim theorems. -/

/-- Claim C9 (confirmed): applying code unescape to the result of the
fallback entity escaping of hilite (replace ampersand, then less-than,
then greater-than) returns the original string: the unescape order lt, gt,
amp inverts the escape order amp, lt, gt. -/
theorem C9_unescape_inverts_escape (s : List Char) :
    code_unescape
      (replChar '>' ("&gt;".data)
        (replChar '<' ("&lt;".data)
          (replChar '&' ("&amp;".data) s))) = s :=
  code_unescape_escCodeFallback s

/-- Claim C7 (confirmed): parse hl lines maps the string 2 4 to the list
of line numbers 2 and 4; a missing, empty or malformed value yields the
empty list, and the function is total, never an error. -/
theorem C7_parse_hl_lines_total :
    (parse_hl_lines (some ("2 4".data)) = [2, 4])
    ∧ (parse_hl_lines none = [])
    ∧ (parse_hl_lines (some []) = [])
    ∧ ∀ s, (pySplit s).mapM pyInt = none → parse_hl_lines (some s) = [] := by
  refine ⟨by decide, rfl, rfl, ?_⟩
  intro s h
  show (if s.isEmpty = true then []
        else
          match (pySplit s).mapM pyInt with
          | some l => l
          | none => ([] : List Int)) = []
  by_cases he : s.isEmpty
  · rw [if_pos he]
  · rw [if_neg he, h]

/-- Witness for C7 at a malformed input: the token 2,4 fails integer
parsing and the result is the empty list. -/
theorem C7_witness :
    ((pySplit ("2,4".data)).mapM pyInt = none)
    ∧ parse_hl_lines (some ("2,4".data)) = [] :=
  ⟨by decide, C7_parse_hl_lines_total.2.2.2 ("2,4".data) (by decide)⟩

/-- Claim C2 (confirmed, stash modelled from the spec): run on a pre
element with exactly one child whose tag is code clears the element
(attributes, tail and children removed), retags it as p and sets its text
to the placeholder returned by storing the highlighted fragment (the
highlighter applied to the unescaped child text) in the stash. -/
theorem C2_hilite_block_replaced (hil : List Char → List Char)
    (stash : List (List Char)) (tag : Tag)
    (attrib : List (List Char × List Char)) (text tail : List Char)
    (ctag : Tag) (cattr : List (List Char × List Char))
    (ctext ctail : List Char) (ccs : ElList)
    (h1 : tag = Tag.named ("pre".data))
    (h2 : ctag = Tag.named ("code".data)) :
    runElem hil stash
      (.mk tag attrib text tail (.cons (.mk ctag cattr ctext ctail ccs) .nil))
      = (Element.mk (Tag.named ("p".data)) [] (placeholder stash.length) []
           ElList.nil,
         stash ++ [hil (code_unescape ctext)]) := by
  subst h1
  subst h2
  rw [runElem, if_pos (by rfl)]
  rfl

/-- Witness for C2 at a concrete pre and code pair whose text carries an
escaped ampersand. -/
theorem C2_witness :
    runElem (fun s => s) []
      (.mk (.named ("pre".data)) [(("k".data), ("v".data))] ("t".data)
        ("u".data)
        (.cons (.mk (.named ("code".data)) [] ("x &amp; y".data) [] .nil) .nil))
      = (.mk (.named ("p".data)) [] (placeholder 0) [] .nil,
         [("x & y".data)]) := by
  rw [C2_hilite_block_replaced (fun s => s) [] _ _ _ _ _ _ _ _ _ rfl rfl]
  rfl

/-- Claim C10 (confirmed): run mutates only pre elements with exactly one
code child: a tree containing no such block is returned unchanged with the
stash untouched, and an element that is not itself such a block keeps its
tag, attributes, text and tail, its children being rewritten recursively. -/
theorem C10_run_frame (hil : List Char → List Char)
    (stash : List (List Char)) (e : Element) :
    (hasHiliteBlock e = false → runElem hil stash e = (e, stash))
    ∧ (isHiliteBlock e = false →
        ((runElem hil stash e).1.tagOf = e.tagOf
         ∧ (runElem hil stash e).1.attribOf = e.attribOf
         ∧ (runElem hil stash e).1.textOf = e.textOf
         ∧ (runElem hil stash e).1.tailOf = e.tailOf
         ∧ (runElem hil stash e).1.childrenOf
             = (runList hil stash e.childrenOf).1)) := by
  constructor
  · exact runElem_noMatch hil stash e
  · intro h
    cases e with
    | mk tag attrib text tail children =>
        rw [runElem_unmatched_fields hil stash tag attrib text tail children h]
        exact ⟨rfl, rfl, rfl, rfl, rfl⟩

/-- Witness for C10 at a concrete tree with no matched block: a paragraph
holding a pre element with two children. -/
theorem C10_witness :
    (runElem (fun s => s) []
      (.mk (.named ("p".data)) [] ("t".data) []
        (.cons (.mk (.named ("pre".data)) [] [] []
          (.cons (.mk (.named ("code".data)) [] ("a".data) [] .nil)
            (.cons (.mk (.named ("em".data)) [] ("b".data) [] .nil) .nil)))
          .nil))
      = (.mk (.named ("p".data)) [] ("t".data) []
          (.cons (.mk (.named ("pre".data)) [] [] []
            (.cons (.mk (.named ("code".data)) [] ("a".data) [] .nil)
              (.cons (.mk (.named ("em".data)) [] ("b".data) [] .nil) .nil)))
            .nil), [])) :=
  (C10_run_frame (fun s => s) []
    (.mk (.named ("p".data)) [] ("t".data) []
      (.cons (.mk (.named ("pre".data)) [] [] []
        (.cons (.mk (.named ("code".data)) [] ("a".data) [] .nil)
          (.cons (.mk (.named ("em".data)) [] ("b".data) [] .nil) .nil)))
        .nil))).1 (by rfl)

theorem parseHeader_split (st : CHState) (fl : List Char)
    (rest : List (List Char)) (h : splitNl st.src = fl :: rest) :
    parseHeader st
      = match matchHeader fl with
        | some m =>
            { st with
              lang := some (lower m.lang),
              linenos :=
                if st.linenos = Lno.noneV ∧ m.shebang then Lno.boolV true
                else st.linenos,
              hl_lines := parse_hl_lines m.hl_lines,
              src := stripNl (joinNl (if m.path.isSome then fl :: rest else rest)) }
        | none => { st with src := stripNl (joinNl (fl :: rest)) } := by
  rw [parseHeader.eq_def, h]

/-- Claim C4 (confirmed): with no pre-supplied language, a first line of
hash-bang python (no path) resolves the language to python, turns line
numbering on when the linenos option was unset, and removes the first
line; a first line of hash-bang slash-usr-slash-bin-slash-env python
(path present) still resolves the language to python but keeps the first
line in the block; the colon form leaves line numbering in its current
state. -/
theorem C4_shebang_detection (st : CHState) (rest : List (List Char)) :
    (splitNl st.src = ("#!python".data) :: rest →
      parseHeader st
        = { st with
            lang := some ("python".data),
            linenos :=
              if st.linenos = Lno.noneV then Lno.boolV true else st.linenos,
            hl_lines := [],
            src := stripNl (joinNl rest) })
    ∧ (splitNl st.src = ("#!/usr/bin/env python".data) :: rest →
      parseHeader st
        = { st with
            lang := some ("python".data),
            linenos :=
              if st.linenos = Lno.noneV then Lno.boolV true else st.linenos,
            hl_lines := [],
            src := stripNl (joinNl (("#!/usr/bin/env python".data) :: rest)) })
    ∧ (splitNl st.src = (":::python".data) :: rest →
      parseHeader st
        = { st with
            lang := some ("python".data),
            hl_lines := [],
            src := stripNl (joinNl rest) }) := by
  refine ⟨?_, ?_, ?_⟩
  · intro h
    rw [parseHeader_split st _ _ h]
    have hm : matchHeader ("#!python".data)
        = some ⟨true, none, ("python".data), none⟩ := by decide
    rw [hm]
    simp
    exact ⟨by decide, rfl⟩
  · intro h
    rw [parseHeader_split st _ _ h]
    have hm : matchHeader ("#!/usr/bin/env python".data)
        = some ⟨true, some ("/usr/bin/env ".data), ("python".data), none⟩ := by
      decide
    rw [hm]
    simp
    exact ⟨by decide, rfl⟩
  · intro h
    rw [parseHeader_split st _ _ h]
    have hm : matchHeader (":::python".data)
        = some ⟨false, none, ("python".data), none⟩ := by decide
    rw [hm]
    simp
    exact ⟨by decide, rfl⟩

/-- Witness for C4 at three concrete code blocks, one per header form. -/
theorem C4_witness :
    (parseHeader
      { src := ("#!python\nx=1".data), lang := none, guess_lang := true,
        use_pygments := true, langPfx := ("language-".data),
        linenos := Lno.noneV, cssclass := ("codehilite".data), hl_lines := [] }
      = { src := ("x=1".data), lang := some ("python".data),
          guess_lang := true, use_pygments := true,
          langPfx := ("language-".data), linenos := Lno.boolV true,
          cssclass := ("codehilite".data), hl_lines := [] })
    ∧ (parseHeader
      { src := ("#!/usr/bin/env python\nx=1".data), lang := none,
        guess_lang := true, use_pygments := true,
        langPfx := ("language-".data), linenos := Lno.noneV,
        cssclass := ("codehilite".data), hl_lines := [] }
      = { src := ("#!/usr/bin/env python\nx=1".data),
          lang := some ("python".data), guess_lang := true,
          use_pygments := true, langPfx := ("language-".data),
          linenos := Lno.boolV true, cssclass := ("codehilite".data),
          hl_lines := [] })
    ∧ (parseHeader
      { src := (":::python\nx=1".data), lang := none, guess_lang := true,
        use_pygments := true, langPfx := ("language-".data),
        linenos := Lno.boolV false, cssclass := ("codehilite".data),
        hl_lines := [] }
      = { src := ("x=1".data), lang := some ("python".data),
          guess_lang := true, use_pygments := true,
          langPfx := ("language-".data), linenos := Lno.boolV false,
          cssclass := ("codehilite".data), hl_lines := [] }) := by
  refine ⟨?_, ?_, ?_⟩
  · have := (C4_shebang_detection
      { src := ("#!python\nx=1".data), lang := none, guess_lang := true,
        use_pygments := true, langPfx := ("language-".data),
        linenos := Lno.noneV, cssclass := ("codehilite".data), hl_lines := [] }
      [("x=1".data)]).1 (by decide)
    rw [this]
    rfl
  · have := (C4_shebang_detection
      { src := ("#!/usr/bin/env python\nx=1".data), lang := none,
        guess_lang := true, use_pygments := true,
        langPfx := ("language-".data), linenos := Lno.noneV,
        cssclass := ("codehilite".data), hl_lines := [] }
      [("x=1".data)]).2.1 (by decide)
    rw [this]
    rfl
  · have := (C4_shebang_detection
      { src := (":::python\nx=1".data), lang := none, guess_lang := true,
        use_pygments := true, langPfx := ("language-".data),
        linenos := Lno.boolV false, cssclass := ("codehilite".data),
        hl_lines := [] }
      [("x=1".data)]).2.2 (by decide)
    rw [this]
    rfl

/-- Claim C6 (confirmed): when the external highlighter is unavailable or
disabled, hilite does not depend on the external highlighter at all and
returns the manual fallback markup: the stripped source with ampersand,
less-than, greater-than and double quote escaped in that order, wrapped in
pre and code markup carrying the configured CSS class, with the code class
list holding the language prefix plus language when a language is known
and the linenums class when line numbering is enabled. -/
theorem C6_fallback_markup (pyg : Bool) (ext1 ext2 : CHState → List Char)
    (sheb : Bool) (st : CHState) (l : List Char)
    (hdis : pyg = false ∨ st.use_pygments = false)
    (hlang : st.lang = some l) :
    (hiliteM pyg ext1 sheb st = hiliteM pyg ext2 sheb st)
    ∧ (hiliteM pyg ext1 sheb st
        = ("<pre class=\"".data) ++ st.cssclass ++ ("\"><code".data)
          ++ (let classes :=
                (if !l.isEmpty then [st.langPfx ++ l] else [])
                  ++ (if st.linenos.truthy then [("linenums".data)] else []);
              if classes.isEmpty then []
              else (" class=\"".data) ++ joinSpace classes ++ ['"'])
          ++ '>' ::
            (replChar '"' ("&quot;".data)
              (replChar '>' ("&gt;".data)
                (replChar '<' ("&lt;".data)
                  (replChar '&' ("&amp;".data) (stripNl st.src))))
             ++ '\n' :: ("</code></pre>\n".data))) := by
  have hcond : (pyg && st.use_pygments) = false := by
    rcases hdis with h | h <;> simp [h]
  constructor
  · simp only [hiliteM, hlang, Option.isNone_some, Bool.false_and, if_neg Bool.false_ne_true]
    rw [hcond]
    simp
  · simp only [hiliteM, hlang, Option.isNone_some, Bool.false_and, if_neg Bool.false_ne_true]
    rw [hcond]
    simp [langTruthy, Option.getD]

/-- Witness for C6: a block containing a script tag with the external
highlighter disabled produces entity-escaped output in the configured
class, independent of the external highlighter. -/
theorem C6_witness :
    ((false : Bool) = false ∨
      ({ src := ("<script>".data), lang := some ("text".data),
         guess_lang := true, use_pygments := true,
         langPfx := ("language-".data), linenos := Lno.noneV,
         cssclass := ("codehilite".data), hl_lines := [] } : CHState).use_pygments
        = false)
    ∧ ({ src := ("<script>".data), lang := some ("text".data),
         guess_lang := true, use_pygments := true,
         langPfx := ("language-".data), linenos := Lno.noneV,
         cssclass := ("codehilite".data), hl_lines := [] } : CHState).lang
        = some ("text".data)
    ∧ hiliteM false (fun _ => ("IGNORED".data)) true
        { src := ("<script>".data), lang := some ("text".data),
          guess_lang := true, use_pygments := true,
          langPfx := ("language-".data), linenos := Lno.noneV,
          cssclass := ("codehilite".data), hl_lines := [] }
        = ("<pre class=\"codehilite\"><code class=\"language-text\">&lt;script&gt;\n</code></pre>\n".data) := by
  refine ⟨Or.inl rfl, rfl, ?_⟩
  have := (C6_fallback_markup false (fun _ => ("IGNORED".data)) (fun _ => [])
    true
    { src := ("<script>".data), lang := some ("text".data),
      guess_lang := true, use_pygments := true,
      langPfx := ("language-".data), linenos := Lno.noneV,
      cssclass := ("codehilite".data), hl_lines := [] }
    ("text".data) (Or.inl rfl) rfl).2
  rw [this]
  rfl

theorem serializeElem_named (f : Fmt) (t : List Char)
    (attrib : List (List Char × List Char)) (text tail : List Char)
    (children : ElList) :
    serializeElem f (.mk (.named t) attrib text tail children)
      = ('<' :: t
          ++ ((sortPairs attrib).map (fun kv => serializeAttr f kv.1 kv.2)).flatten
          ++ (if f = Fmt.xhtml ∧ lower t ∈ htmlEmpty then (" />".data)
              else '>' ::
                ((if text.isEmpty then []
                  else if lower t = ("script".data) ∨ lower t = ("style".data)
                    then text else escape_cdata text)
                 ++ serializeList f children
                 ++ (if lower t ∈ htmlEmpty then []
                     else ("</".data) ++ t ++ ['>']))))
        ++ (if tail.isEmpty then [] else escape_cdata tail) := rfl

/-- Claim C1 (corrected): the code keeps a bare greater-than sign in
character data (matching the repository bug report about unescaped
greater-than signs) and emits script and style text verbatim, so the
serialized output of a placeholder-free tree can contain a bare
greater-than, less-than or non-reference ampersand. -/
theorem C1_counterexample :
    (to_html_string (.mk (.named ("p".data)) [] ("a>b".data) [] .nil)
      = ("<p>a>b</p>".data))
    ∧ ("<p>a>b</p>".data) ≠ ("<p>a&gt;b</p>".data)
    ∧ (to_html_string (.mk (.named ("script".data)) [] ("a<b&c".data) [] .nil)
      = ("<script>a<b&c</script>".data)) := by
  decide

/-- Claim C1 (amended): for all text routed through the escaping
functions (ordinary character data and attribute values, not script or
style raw text), escaped character data contains no less-than sign and
every ampersand in it begins a character reference; escaped attribute
values additionally contain no greater-than sign and no double quote; an
ampersand already beginning a reference is kept, not re-escaped; and the
serializer routes ordinary element text through escape cdata. -/
theorem C1_escaping_laws (t r : List Char) (hr : refAfterAmp r = true) :
    ('<' ∉ escape_cdata t)
    ∧ ampsOk (escape_cdata t) = true
    ∧ ('<' ∉ escape_attrib_html t)
    ∧ ('>' ∉ escape_attrib_html t)
    ∧ ('"' ∉ escape_attrib_html t)
    ∧ ampsOk (escape_attrib_html t) = true
    ∧ escape_cdata ('&' :: r) = '&' :: escape_cdata r
    ∧ to_html_string (.mk (.named ("p".data)) [] t [] .nil)
        = ("<p>".data) ++ escape_cdata t ++ ("</p>".data) := by
  refine ⟨not_mem_escape_cdata_lt t, ampsOk_escape_cdata t,
    not_mem_escape_attrib_html_lt t, not_mem_escape_attrib_html_gt t,
    not_mem_escape_attrib_html_quot t, ampsOk_escape_attrib_html t,
    escape_cdata_ref_head r hr, ?_⟩
  rw [to_html_string, serializeElem_named]
  rw [if_neg (by decide : ¬(Fmt.html = Fmt.xhtml ∧ lower ("p".data) ∈ htmlEmpty))]
  rw [if_neg (by decide :
    ¬(lower ("p".data) = ("script".data) ∨ lower ("p".data) = ("style".data)))]
  rw [if_neg (by decide : ¬(lower ("p".data) ∈ htmlEmpty))]
  by_cases ht : t.isEmpty
  · rw [if_pos ht]
    rw [List.isEmpty_iff.mp ht]
    rfl
  · rw [if_neg ht]
    show ('<' :: ("p".data)
        ++ ((sortPairs []).map (fun kv => serializeAttr Fmt.html kv.1 kv.2)).flatten
        ++ '>' :: (escape_cdata t ++ serializeList Fmt.html ElList.nil
            ++ (("</".data) ++ ("p".data) ++ ['>'])))
      ++ (if ([] : List Char).isEmpty then [] else escape_cdata []) = _
    simp only [sortPairs, List.map_nil, List.flatten_nil, serializeList,
      List.append_nil, List.nil_append, List.isEmpty_nil, if_true,
      List.cons_append, List.append_assoc]

/-- Witness for C1 at a concrete text and a concrete tail that already
begins a named reference. -/
theorem C1_escaping_witness :
    refAfterAmp ("amp;x".data) = true
    ∧ (('<' ∉ escape_cdata ("a<b&c".data))
       ∧ ampsOk (escape_cdata ("a<b&c".data)) = true
       ∧ ('<' ∉ escape_attrib_html ("a<b&c".data))
       ∧ ('>' ∉ escape_attrib_html ("a<b&c".data))
       ∧ ('"' ∉ escape_attrib_html ("a<b&c".data))
       ∧ ampsOk (escape_attrib_html ("a<b&c".data)) = true
       ∧ escape_cdata ('&' :: ("amp;x".data)) = '&' :: escape_cdata ("amp;x".data)
       ∧ to_html_string (.mk (.named ("p".data)) [] ("a<b&c".data) [] .nil)
           = ("<p>".data) ++ escape_cdata ("a<b&c".data) ++ ("</p>".data)) :=
  ⟨by decide, C1_escaping_laws ("a<b&c".data) ("amp;x".data) (by decide)⟩

/-- Claim C3 (corrected): in HTML mode a void element with text or
children still emits that text and those children; only the closing tag is
omitted. -/
theorem C3_counterexample :
    (to_html_string (.mk (.named ("br".data)) [] ("x".data) [] .nil)
      = ("<br>x".data))
    ∧ ("<br>x".data) ≠ ("<br>".data)
    ∧ (to_html_string (.mk (.named ("br".data)) [] [] []
        (.cons (.mk (.named ("b".data)) [] [] [] .nil) .nil))
      = ("<br><b></b>".data)) := by
  decide

/-- Claim C3 (amended): a recognized void element always self-closes in
XHTML mode without emitting text or children, and in HTML mode never
receives a closing tag, though any text or children present are still
emitted; the tail is emitted in both modes. -/
theorem C3_void_law (t : List Char) (attrib : List (List Char × List Char))
    (text tail : List Char) (children : ElList)
    (h : lower t ∈ htmlEmpty) :
    (to_xhtml_string (.mk (.named t) attrib text tail children)
      = '<' :: t
        ++ ((sortPairs attrib).map (fun kv => serializeAttr Fmt.xhtml kv.1 kv.2)).flatten
        ++ (" />".data)
        ++ (if tail.isEmpty then [] else escape_cdata tail))
    ∧ (to_html_string (.mk (.named t) attrib text tail children)
      = '<' :: t
        ++ ((sortPairs attrib).map (fun kv => serializeAttr Fmt.html kv.1 kv.2)).flatten
        ++ '>' :: ((if text.isEmpty then []
                    else if lower t = ("script".data) ∨ lower t = ("style".data)
                      then text else escape_cdata text)
                   ++ serializeList Fmt.html children)
        ++ (if tail.isEmpty then [] else escape_cdata tail)) := by
  constructor
  · rw [to_xhtml_string, serializeElem_named, if_pos ⟨rfl, h⟩]
  · rw [to_html_string, serializeElem_named]
    rw [if_neg (fun hc => by exact absurd hc.1 (by decide))]
    rw [if_pos h]
    simp [List.append_assoc]

/-- Witness for C3 at a br element carrying an attribute, text, a child
and a tail. -/
theorem C3_witness :
    lower ("br".data) ∈ htmlEmpty
    ∧ ((to_xhtml_string (.mk (.named ("br".data)) [(("a".data), ("1".data))]
          ("x".data) ("z".data)
          (.cons (.mk (.named ("em".data)) [] ("e".data) [] .nil) .nil))
        = ("<br a=\"1\" />z".data))
       ∧ (to_html_string (.mk (.named ("br".data)) [(("a".data), ("1".data))]
            ("x".data) ("z".data)
            (.cons (.mk (.named ("em".data)) [] ("e".data) [] .nil) .nil))
          = ("<br a=\"1\">x<em>e</em>z".data))) :=
  ⟨by decide,
   C3_void_law ("br".data) [(("a".data), ("1".data))] ("x".data) ("z".data)
     (.cons (.mk (.named ("em".data)) [] ("e".data) [] .nil) .nil) (by decide)⟩

/-- Claim C5 (corrected): the boolean-attribute test compares the key
against the escaped value, so an attribute whose key equals its raw value
is not emitted as a bare key when escaping changes the value. -/
theorem C5_counterexample :
    (to_html_string (.mk (.named ("p".data)) [(("a&".data), ("a&".data))]
        [] [] .nil)
      = ("<p a&=\"a&amp;\"></p>".data))
    ∧ ("<p a&=\"a&amp;\"></p>".data) ≠ ("<p a&></p>".data)
    ∧ (to_xhtml_string (.mk (.named ("p".data)) [(("a&".data), ("a&".data))]
        [] [] .nil)
      = ("<p a&=\"a&amp;\"></p>".data))
    ∧ ("<p a&=\"a&amp;\"></p>".data) ≠ ("<p a&=\"a&\"></p>".data) := by
  decide

/-- Claim C5 (amended): an attribute whose key equals the escaped form of
its value (in particular any key-equals-value attribute whose value is
unchanged by attribute escaping) serializes in HTML mode as the bare key
and in XHTML mode as key equals quoted key. -/
theorem C5_boolean_attr_law (k v : List Char)
    (h : escape_attrib_html v = k) :
    (serializeAttr Fmt.html k v = ' ' :: k)
    ∧ (serializeAttr Fmt.xhtml k v = ' ' :: (k ++ '=' :: '"' :: (k ++ ['"'])))
    ∧ ∀ tg, ¬(lower tg ∈ htmlEmpty) →
        (to_html_string (.mk (.named tg) [(k, v)] [] [] .nil)
          = '<' :: tg ++ (' ' :: k) ++ '>' :: (("</".data) ++ tg ++ ['>']))
        ∧ (to_xhtml_string (.mk (.named tg) [(k, v)] [] [] .nil)
          = '<' :: tg ++ (' ' :: (k ++ '=' :: '"' :: (k ++ ['"'])))
            ++ '>' :: (("</".data) ++ tg ++ ['>'])) := by
  have hh : serializeAttr Fmt.html k v = ' ' :: k := by
    simp [serializeAttr, h]
  have hx : serializeAttr Fmt.xhtml k v
      = ' ' :: (k ++ '=' :: '"' :: (k ++ ['"'])) := by
    simp [serializeAttr, h]
  refine ⟨hh, hx, ?_⟩
  intro tg htg
  constructor
  · rw [to_html_string, serializeElem_named]
    rw [if_neg (fun hc => by exact absurd hc.1 (by decide))]
    rw [if_neg htg]
    show '<' :: tg ++ (serializeAttr Fmt.html k v ++ []) ++ _ ++ _ = _
    rw [hh]
    simp [List.append_assoc, serializeList]
  · rw [to_xhtml_string, serializeElem_named]
    rw [if_neg (fun hc => htg hc.2)]
    rw [if_neg htg]
    show '<' :: tg ++ (serializeAttr Fmt.xhtml k v ++ []) ++ _ ++ _ = _
    rw [hx]
    simp [List.append_assoc, serializeList]

/-- Witness for C5 at the attribute checked equals checked on a p
element. -/
theorem C5_witness :
    escape_attrib_html ("checked".data) = ("checked".data)
    ∧ ¬(lower ("p".data) ∈ htmlEmpty)
    ∧ (serializeAttr Fmt.html ("checked".data) ("checked".data)
        = ' ' :: ("checked".data))
    ∧ (serializeAttr Fmt.xhtml ("checked".data) ("checked".data)
        = ' ' :: (("checked".data) ++ '=' :: '"' :: (("checked".data) ++ ['"'])))
    ∧ (to_html_string (.mk (.named ("p".data))
        [(("checked".data), ("checked".data))] [] [] .nil)
        = ("<p checked></p>".data))
    ∧ (to_xhtml_string (.mk (.named ("p".data))
        [(("checked".data), ("checked".data))] [] [] .nil)
        = ("<p checked=\"checked\"></p>".data)) := by
  have h := C5_boolean_attr_law ("checked".data) ("checked".data) (by decide)
  have h2 := h.2.2 ("p".data) (by decide)
  refine ⟨by decide, by decide, h.1, h.2.1, ?_, ?_⟩
  · rw [h2.1]; decide
  · rw [h2.2]; decide

/-- Claim C8 (corrected): attribute values are escaped with the function
that does not touch newlines in both modes; an embedded newline survives
XHTML serialization unescaped. -/
theorem C8_counterexample :
    (to_xhtml_string (.mk (.named ("a".data))
        [(("href".data), ("x\ny".data))] [] [] .nil)
      = ("<a href=\"x\ny\"></a>".data))
    ∧ '\n' ∈ ("<a href=\"x\ny\"></a>".data)
    ∧ ("<a href=\"x\ny\"></a>".data) ≠ ("<a href=\"x&#10;y\"></a>".data) := by
  decide

/-- Claim C8 (amended): attribute serialization escapes the ampersand
(entity-aware), less-than, greater-than and double quote in both modes
through escape attrib html; newlines in attribute values are not escaped
in either mode (they survive), and the newline-escaping variant escape
attrib is applied only to namespace declarations, never to attribute
values. -/
theorem C8_attrib_escaping_law (v k : List Char) (hn : '\n' ∈ v) :
    ('<' ∉ escape_attrib_html v)
    ∧ ('>' ∉ escape_attrib_html v)
    ∧ ('"' ∉ escape_attrib_html v)
    ∧ ampsOk (escape_attrib_html v) = true
    ∧ '\n' ∈ escape_attrib_html v
    ∧ '\n' ∉ escape_attrib v
    ∧ (serializeAttr Fmt.xhtml k v
        = ' ' :: (k ++ '=' :: '"' :: (escape_attrib_html v ++ ['"'])))
    ∧ (k ≠ escape_attrib_html v →
        serializeAttr Fmt.html k v
          = ' ' :: (k ++ '=' :: '"' :: (escape_attrib_html v ++ ['"']))) := by
  refine ⟨not_mem_escape_attrib_html_lt v, not_mem_escape_attrib_html_gt v,
    not_mem_escape_attrib_html_quot v, ampsOk_escape_attrib_html v,
    newline_mem_escape_attrib_html v hn, not_mem_escape_attrib_newline v,
    ?_, ?_⟩
  · simp only [serializeAttr]
    rw [if_neg (fun hc => by exact absurd hc.2 (by decide))]
  · intro hk
    simp only [serializeAttr]
    rw [if_neg (fun hc => hk hc.1)]

/-- Witness for C8 at the attribute href with a value containing a
newline. -/
theorem C8_witness :
    '\n' ∈ ("x\ny".data)
    ∧ ('\n' ∈ escape_attrib_html ("x\ny".data))
    ∧ ('\n' ∉ escape_attrib ("x\ny".data))
    ∧ (serializeAttr Fmt.xhtml ("href".data) ("x\ny".data)
        = ' ' :: (("href".data) ++ '=' :: '"'
            :: (escape_attrib_html ("x\ny".data) ++ ['"']))) := by
  have h := C8_attrib_escaping_law ("x\ny".data) ("href".data) (by decide)
  exact ⟨by decide, h.2.2.2.2.1, h.2.2.2.2.2.1, h.2.2.2.2.2.2.1⟩

end Md
